import Mathlib

/-!
Verification development for the schema-relationship-graph and join-path
planner of `query_gen.py` (class `HybridQueryGenerator`).

The Python data model and operations are shallowly embedded:

* `TableSchema` / `Column` / `ForeignKey` mirror the dataclass `TableSchema`
  and the column/fk dictionaries built by `extract_schema_from_ddl`
  (query_gen.py:497-640).  Python dicts keyed by table name are embedded as
  insertion-ordered association lists `List (String × TableSchema)`.
* `TableRelation` mirrors the dataclass at query_gen.py:117-132; `confidence`
  is embedded as `ℚ` (the code only ever compares confidences or takes `min`,
  never performs float arithmetic whose rounding could matter).
* The LLM semantic oracle is embedded at the structured boundary: the raw
  response string is abstracted into `OracleResponse` (`noResponse` for a
  falsy response, `unparseable` for a response whose JSON extraction or
  `relationships` key fails, `judgments` for a parsed list).  A judgment's
  `confidence` field is `Option ConfVal`, where `ConfVal.malformed` stands
  for a value on which Python `float(...)` raises `ValueError` — caught by
  the `except` at query_gen.py:871, which aborts the remaining loop while
  keeping already-appended relations.
* Python string operations are embedded over `String.data` (Python `str`
  semantics are code-point sequences, exactly `List Char`).
* Python `set` iteration order is implementation-defined (hash-based); the
  embedding refines it to first-insertion order, which is noted wherever a
  result can depend on it.
-/

namespace QueryGen

/-- A column entry, mirroring the column dictionaries built by
`extract_schema_from_ddl` (keys `name`, `type`, `nullable`,
`auto_increment`); `comment` mirrors `col.get('comment', '')` used by
`extract_table_relations`, defaulting to the empty string when absent. -/
structure Column where
  name : String
  type : String
  nullable : Bool := true
  auto_increment : Bool := false
  comment : String := ""
deriving Repr, DecidableEq

/-- A declared foreign-key constraint, mirroring the fk dictionaries of
`extract_schema_from_ddl` (keys `from_column`, `to_table`, `to_column`). -/
structure ForeignKey where
  from_column : String
  to_table : String
  to_column : String
deriving Repr, DecidableEq

/-- The dataclass `TableSchema` (query_gen.py:134-141). -/
structure TableSchema where
  table_name : String
  columns : List Column
  primary_keys : List String
  foreign_keys : List ForeignKey
  comment : String := ""
deriving Repr, DecidableEq

/-- The dataclass `TableRelation` (query_gen.py:117-132), with the same
field defaults. -/
structure TableRelation where
  from_table : String
  from_column : String
  to_table : String
  to_column : String
  relation_type : String
  confidence : ℚ
  from_column_type : String := ""
  to_column_type : String := ""
  from_column_desc : String := ""
  to_column_desc : String := ""
  is_nullable : Bool := true
  is_indexed : Bool := false
deriving Repr, DecidableEq

/-- `self.table_schemas`: a Python dict `str → TableSchema`, embedded as an
insertion-ordered association list. -/
abbrev Schemas := List (String × TableSchema)

/-- Dict lookup `self.table_schemas.get(name)`. -/
def lookupSchema (schemas : Schemas) (tname : String) : Option TableSchema :=
  (schemas.find? (fun p => p.1 == tname)).map (fun p => p.2)

/-- Dict membership `name in self.table_schemas`. -/
def tableExists (schemas : Schemas) (tname : String) : Bool :=
  (schemas.find? (fun p => p.1 == tname)).isSome

/-- `next((col for col in columns if col['name'] == cname), None)`. -/
def findColumn (cols : List Column) (cname : String) : Option Column :=
  cols.find? (fun c => c.name == cname)

/-! ### Python string helpers over code points -/

/-- Python `s.endswith(t)` over code points. -/
def strEndsWith (s t : String) : Bool := t.data.isSuffixOf s.data

/-- Python `t in s` (substring containment) over code points. -/
def strContains (s t : String) : Bool := s.data.tails.any (fun tl => t.data.isPrefixOf tl)

/-- Python `s.lower()` over code points. -/
def strToLower (s : String) : String := ⟨s.data.map Char.toLower⟩

/-- Python `s[:-3]`, used to strip a trailing `_id`. -/
def stripIdSuffix (s : String) : String := ⟨s.data.take (s.data.length - 3)⟩

/-- Python string `<=` (lexicographic over code points), as used by
`sorted` on a pair of table names. -/
def charListLe : List Char → List Char → Bool
  | [], _ => true
  | _ :: _, [] => false
  | a :: as, b :: bs => if a = b then charListLe as bs else decide (a < b)

/-- `tuple(sorted([a, b]))` for two strings. -/
def sortPair (a b : String) : String × String :=
  if charListLe a.data b.data then (a, b) else (b, a)

/-- First-occurrence deduplication, the embedding's refinement of a Python
`set` built from a list (set iteration order is implementation-defined;
first-insertion order is used throughout this embedding). -/
def pyDedupAux : List String → List String → List String
  | [], _ => []
  | x :: xs, seen =>
    if seen.contains x then pyDedupAux xs seen else x :: pyDedupAux xs (x :: seen)

/-- `set(xs)` in first-insertion iteration order. -/
def pyDedup (xs : List String) : List String := pyDedupAux xs []

/-! ### Foreign-key pass of `extract_table_relations` (query_gen.py:646-671) -/

/-- One relation appended per declared FK constraint (query_gen.py:655-669):
relation type `foreign_key`, confidence exactly 1.0, column metadata looked
up from the schemas, `is_indexed` hardcoded to true. -/
def fkRelation (schemas : Schemas) (table_name : String) (schema : TableSchema)
    (fk : ForeignKey) : TableRelation :=
  let from_col_meta := findColumn schema.columns fk.from_column
  let to_col_meta := (lookupSchema schemas fk.to_table).bind
    (fun ts => findColumn ts.columns fk.to_column)
  { from_table := table_name
    from_column := fk.from_column
    to_table := fk.to_table
    to_column := fk.to_column
    relation_type := "foreign_key"
    confidence := 1
    from_column_type := (from_col_meta.map (fun c => c.type)).getD ""
    to_column_type := (to_col_meta.map (fun c => c.type)).getD ""
    from_column_desc := (from_col_meta.map (fun c => c.comment)).getD ""
    to_column_desc := (to_col_meta.map (fun c => c.comment)).getD ""
    is_nullable := (from_col_meta.map (fun c => c.nullable)).getD true
    is_indexed := true }

/-- The foreign-key pass: the loop at query_gen.py:648-669. -/
def extract_fk_relations (schemas : Schemas) : List TableRelation :=
  schemas.flatMap (fun p => p.2.foreign_keys.map (fkRelation schemas p.1 p.2))

/-! ### Semantic pass: `analyze_semantic_relationships_with_llm`
(query_gen.py:760-875), embedded at the structured oracle boundary -/

/-- The value found under a judgment's `confidence` key.  `val q` is a value
Python's `float(...)` converts successfully; `malformed` is one on which
`float(...)` raises `ValueError` (caught at query_gen.py:871, aborting the
rest of the loop while keeping relations appended so far). -/
inductive ConfVal where
  | val (q : ℚ)
  | malformed
deriving Repr, DecidableEq

/-- One entry of the oracle's `relationships` array.  `none` fields mirror
missing JSON keys: `rel_data.get('table1', '')` etc. default them. -/
structure Judgment where
  table1 : Option String := none
  table2 : Option String := none
  reason : Option String := none
  confidence : Option ConfVal := none
deriving Repr, DecidableEq

/-- The oracle response after the raw-string stages of
`analyze_semantic_relationships_with_llm`: `noResponse` for a falsy LLM
response (query_gen.py:824), `unparseable` when brace extraction,
`json.loads`, or the `relationships` key fails (both yield `[]`),
`judgments` for a parsed list. -/
inductive OracleResponse where
  | noResponse
  | unparseable
  | judgments (js : List Judgment)
deriving Repr, DecidableEq

/-- The `existing` duplicate check at query_gen.py:850-854: some relation in
`self.table_relations` already links the two tables, in either order. -/
def pairExisting (rels : List TableRelation) (t1 t2 : String) : Bool :=
  rels.any (fun r =>
    (r.from_table == t1 && r.to_table == t2) || (r.from_table == t2 && r.to_table == t1))

/-- The relation appended at query_gen.py:858-865: relation type
`description_semantic`, empty columns, confidence `min(confidence, 0.9)`. -/
def semanticRelation (t1 t2 : String) (conf : ℚ) : TableRelation :=
  { from_table := t1
    from_column := ""
    to_table := t2
    to_column := ""
    relation_type := "description_semantic"
    confidence := min conf (mkRat 9 10) }

/-- The `for rel_data in result['relationships']` loop
(query_gen.py:838-867).  `existing` is `self.table_relations` at call time;
`acc` is `relations` accumulated so far.  A malformed confidence raises
`ValueError` out of the loop, caught at query_gen.py:871, so the function
returns the accumulator unchanged from that point on. -/
def processJudgments (schemas : Schemas) (existing : List TableRelation) :
    List Judgment → List TableRelation → List TableRelation
  | [], acc => acc
  | j :: rest, acc =>
    match j.confidence.getD (ConfVal.val (mkRat 1 2)) with
    | ConfVal.malformed => acc
    | ConfVal.val conf =>
      let t1 := j.table1.getD ""
      let t2 := j.table2.getD ""
      if tableExists schemas t1 && tableExists schemas t2 && !(t1 == t2) then
        if pairExisting existing t1 t2 then
          processJudgments schemas existing rest acc
        else
          processJudgments schemas existing rest (acc ++ [semanticRelation t1 t2 conf])
      else
        processJudgments schemas existing rest acc

/-- `analyze_semantic_relationships_with_llm` (query_gen.py:760-875) from
the structured oracle response on.  `existing` is the state of
`self.table_relations` when the method runs. -/
def analyze_semantic_relationships_with_llm (schemas : Schemas)
    (existing : List TableRelation) (resp : OracleResponse) : List TableRelation :=
  match resp with
  | OracleResponse.judgments js => processJudgments schemas existing js []
  | _ => []

/-! ### Column attachment and `extract_table_relations`
(query_gen.py:642-711) -/

/-- The candidate-column search at query_gen.py:684-687: first column whose
name ends in `_id` or whose lowercased name contains `name`. -/
def candidateJoinColumn (cols : List Column) : Option Column :=
  cols.find? (fun c => strEndsWith c.name "_id" || strContains (strToLower c.name) "name")

/-- The per-relation column attachment at query_gen.py:677-698: when both
tables resolve and both have a candidate column, the semantic relation is
mutated in place with those column names and metadata. -/
def attachColumns (schemas : Schemas) (rel : TableRelation) : TableRelation :=
  match lookupSchema schemas rel.from_table, lookupSchema schemas rel.to_table with
  | some fs, some ts =>
    match candidateJoinColumn fs.columns, candidateJoinColumn ts.columns with
    | some fc, some tc =>
      { rel with
        from_column := fc.name
        to_column := tc.name
        from_column_type := fc.type
        to_column_type := tc.type
        from_column_desc := fc.comment
        to_column_desc := tc.comment
        is_nullable := fc.nullable
        is_indexed := strEndsWith fc.name "_id" }
    | _, _ => rel
  | _, _ => rel

/-- `extract_table_relations` (query_gen.py:642-711): the foreign-key pass
followed by the semantic pass.  `prev` is `self.table_relations` before the
call — note the code consults this *stale* list in the semantic duplicate
check (line 853) because line 700 only assigns the new list afterwards. -/
def extract_table_relations (schemas : Schemas) (prev : List TableRelation)
    (resp : OracleResponse) : List TableRelation :=
  extract_fk_relations schemas ++
    (analyze_semantic_relationships_with_llm schemas prev resp).map (attachColumns schemas)

/-! ### Graph materialization: `create_schema_graph_in_neo4j`
(query_gen.py:877-960), edge layer -/

/-- A relationship edge written to Neo4j: `REFERENCES` edges carry column
names (query_gen.py:947-958); `SEMANTIC_RELATION` edges carry none
(query_gen.py:923-944). -/
inductive GraphEdge where
  | references (from_table to_table from_column to_column relation_type : String)
      (confidence : ℚ)
  | semanticRel (from_table to_table relation_type : String) (confidence : ℚ)
deriving Repr, DecidableEq

/-- The per-relation edge creation (query_gen.py:919-958): a
`description_semantic` relation yields two directed `SEMANTIC_RELATION`
edges, one in each direction, with the same confidence; every other
relation yields one directed `REFERENCES` edge carrying its columns. -/
def edgesOfRelation (rel : TableRelation) : List GraphEdge :=
  if rel.relation_type == "description_semantic" then
    [GraphEdge.semanticRel rel.from_table rel.to_table rel.relation_type rel.confidence,
     GraphEdge.semanticRel rel.to_table rel.from_table rel.relation_type rel.confidence]
  else
    [GraphEdge.references rel.from_table rel.to_table rel.from_column rel.to_column
      rel.relation_type rel.confidence]

/-- The full edge set of the rebuilt graph.  The Cypher `MATCH` clauses on
both endpoint `Table` nodes mean a relation whose endpoint table was never
created produces no edge. -/
def create_schema_graph_edges (schemas : Schemas) (rels : List TableRelation) :
    List GraphEdge :=
  rels.flatMap (fun rel =>
    if tableExists schemas rel.from_table && tableExists schemas rel.to_table then
      edgesOfRelation rel
    else [])

/-- Whether `e` is a `REFERENCES` edge joining `a` and `b` in either
direction — the undirected pattern `-[:REFERENCES]-`. -/
def isRefEdgeBetween (a b : String) : GraphEdge → Bool
  | GraphEdge.references f t _ _ _ _ => (f == a && t == b) || (f == b && t == a)
  | GraphEdge.semanticRel _ _ _ _ => false

/-- Whether `e` is a relationship edge of any kind joining `a` and `b` in
either direction. -/
def isAnyEdgeBetween (a b : String) : GraphEdge → Bool
  | GraphEdge.references f t _ _ _ _ => (f == a && t == b) || (f == b && t == a)
  | GraphEdge.semanticRel f t _ _ => (f == a && t == b) || (f == b && t == a)

/-- Undirected adjacency through `REFERENCES` edges only. -/
def refAdjacent (edges : List GraphEdge) (a b : String) : Bool :=
  edges.any (isRefEdgeBetween a b)

/-- Undirected adjacency through relationship edges of every kind. -/
def anyAdjacent (edges : List GraphEdge) (a b : String) : Bool :=
  edges.any (isAnyEdgeBetween a b)

/-- One breadth-first expansion: add every node adjacent to the current
reached set. -/
def expandFrontier (adj : String → String → Bool) (nodes reach : List String) :
    List String :=
  reach ++ nodes.filter (fun m => !reach.contains m && reach.any (fun p => adj p m))

/-- Nodes reachable from `src` in at most `k` hops. -/
def reachableWithin (adj : String → String → Bool) (nodes : List String)
    (src : String) : Nat → List String
  | 0 => [src]
  | k + 1 => expandFrontier adj nodes (reachableWithin adj nodes src k)

/-- The minimum hop count from `a` to `b` not exceeding `bound`, if any. -/
def minHopDistance (adj : String → String → Bool) (nodes : List String)
    (a b : String) (bound : Nat) : Option Nat :=
  (List.range (bound + 1)).find? (fun k => (reachableWithin adj nodes a k).contains b)

/-- Distance semantics of the Cypher query at query_gen.py:1223-1229:
`shortestPath((t1)-[:REFERENCES*1..3]-(t2))` — an undirected shortest path
over `REFERENCES` edges alone, at most 3 hops.  (The query is only issued
for `t1 <> t2`, so the hop-0 case never arises.) -/
def shortest_path_query_distance (schemas : Schemas) (rels : List TableRelation)
    (a b : String) : Option Nat :=
  minHopDistance (refAdjacent (create_schema_graph_edges schemas rels))
    (schemas.map Prod.fst) a b 3

/-- Following the spec's words, for the refinement comparison of claim C9:
the minimum-hop distance over the undirected view of *all* relationship
edges (`foreign_key`, `naming_pattern`, and `semantic` alike), bounded by a
maximum hop count of 3. -/
def spec_all_edges_distance (schemas : Schemas) (rels : List TableRelation)
    (a b : String) : Option Nat :=
  minHopDistance (anyAdjacent (create_schema_graph_edges schemas rels))
    (schemas.map Prod.fst) a b 3

/-! ### Join-path planner: `find_optimal_join_sequence`
(query_gen.py:1212-1301) -/

/-- One entry of a path's extracted relationship list
(query_gen.py:1244-1250). -/
structure JoinPredicate where
  from_table : String
  to_table : String
  from_column : String
  to_column : String
  confidence : ℚ
deriving Repr, DecidableEq

/-- One value of the `connections` dict (query_gen.py:1253-1257): the
shortest-path hop count for an unordered table pair and the relationship
edges along that path. -/
structure Conn where
  distance : Nat
  relationships : List JoinPredicate
deriving Repr, DecidableEq

/-- The `connections` dict: keys are `tuple(sorted([t1, t2]))`, embedded as
an insertion-ordered association list with the pair sorted by Python string
order. -/
abbrev Connections := List ((String × String) × Conn)

/-- `connections.get(tuple(sorted([a, b])))`. -/
def lookupConn (conns : Connections) (a b : String) : Option Conn :=
  (conns.find? (fun kc => kc.1 == sortPair a b)).map (fun kc => kc.2)

/-- `sum(1 for k in connections.keys() if t in k)` (query_gen.py:1263). -/
def connCount (conns : Connections) (t : String) : Nat :=
  (conns.filter (fun kc => kc.1.1 == t || kc.1.2 == t)).length

/-- Python `max(xs, key=key)`: the first element attaining the maximum key
(later elements replace the best only on a strictly greater key). -/
def pyMax (key : String → Nat) : List String → Option String
  | [] => none
  | x :: xs => some (xs.foldl (fun b t => if key t > key b then t else b) x)

/-- One dictionary step of the plan: `{'table': ..., 'joins': ...}`. -/
structure JoinStep where
  table : String
  joins : List JoinPredicate
deriving Repr, DecidableEq

/-- The `connected_tables` set of query_gen.py:1270:
`{start_table} | {j['to_table'] for seq in join_sequence for j in seq['joins']}`,
embedded in first-insertion order (Python set iteration order is
implementation-defined). -/
def connectedOf (start : String) (seq : List JoinStep) : List String :=
  pyDedup (start :: seq.flatMap (fun s => s.joins.map (fun j => j.to_table)))

/-- The body of the double loop at query_gen.py:1276-1282 for one
`(remaining, connected)` pair: update the best candidate when this pair has
a connection with a strictly smaller distance. -/
def considerPair (conns : Connections) (c r : String)
    (best : Option (String × Nat × List JoinPredicate)) :
    Option (String × Nat × List JoinPredicate) :=
  match lookupConn conns c r with
  | none => best
  | some conn =>
    match best with
    | none => some (r, conn.distance, conn.relationships)
    | some (t, d, js) =>
      if conn.distance < d then some (r, conn.distance, conn.relationships)
      else some (t, d, js)

/-- The double loop at query_gen.py:1272-1282: scan remaining tables (outer)
against connected tables (inner), starting from `best_distance = inf`
(`none`). -/
def findBest (conns : Connections) (remaining connected : List String) :
    Option (String × Nat × List JoinPredicate) :=
  remaining.foldl (fun acc r => connected.foldl (fun acc c => considerPair conns c r acc) acc)
    none

/-- The `while remaining_tables:` loop (query_gen.py:1268-1297), with fuel
equal to the initial number of remaining tables (each iteration either
removes one remaining table or appends them all and breaks, so this fuel is
never exhausted).  When no remaining table connects to the placed set, all
remaining tables are appended with empty join lists and the loop breaks. -/
def planLoop (conns : Connections) (start : String) :
    Nat → List String → List JoinStep → List JoinStep
  | _, [], seq => seq
  | 0, _ :: _, seq => seq
  | fuel + 1, r :: rs, seq =>
    match findBest conns (r :: rs) (connectedOf start seq) with
    | some (t, _, js) =>
      planLoop conns start fuel ((r :: rs).erase t) (seq ++ [⟨t, js⟩])
    | none => seq ++ (r :: rs).map (fun t => ⟨t, []⟩)

/-- `find_optimal_join_sequence` (query_gen.py:1212-1301).  `neo4j_driver`
models the `not self.neo4j_driver` guard; `connections` is the dict built
from the shortest-path query results.  Returns `[]` (raising nothing) when
fewer than two tables are required (line 1214-1215) and when the
connections dict is empty (line 1260, 1301); otherwise anchors at the table
with the most pairwise connections (Python `max` keeps the first maximum in
list order) and grows the plan greedily.  `set(required_tables) -
{start_table}` is embedded in first-occurrence order. -/
def find_optimal_join_sequence (neo4j_driver : Bool) (required_tables : List String)
    (connections : Connections) : List JoinStep :=
  if !neo4j_driver || required_tables.length < 2 then []
  else if connections.isEmpty then []
  else
    match pyMax (connCount connections) required_tables with
    | none => []
    | some start =>
      let remaining := (pyDedup required_tables).erase start
      planLoop connections start remaining.length remaining [⟨start, []⟩]

/-! ### Naming-pattern pass (spec-modelled) -/

/-- Whether an equivalent `foreign_key` relationship for the same column
pair already exists. -/
def fk_covers (rels : List TableRelation) (ft fc tt2 tc : String) : Bool :=
  rels.any (fun r =>
    r.relation_type == "foreign_key" && r.from_table == ft && r.from_column == fc &&
      r.to_table == tt2 && r.to_column == tc)

/-- Modelled from the spec: candidate referenced table for a stripped base
name — try the singular form and the naive English plural (`+s`), keeping
the first whose table exists and whose primary key equals the stripped
name. -/
def candidateReferencedTable (schemas : Schemas) (base : String) : Option String :=
  [base, base ++ "s"].findSome? (fun cand =>
    match lookupSchema schemas cand with
    | some ts => if ts.primary_keys == [base] then some cand else none
    | none => none)

/-- Modelled from the spec: the naming-pattern pass of the Relationship
Inferrer is missing from the source files — `query_gen.py` only names the
`naming_pattern` relation type in the `TableRelation` declaration
(line 124); no code emits it.  Per spec §4.1: for a column whose name ends
in `_id` and is not the table's own primary key name, strip the suffix, try
the singular and the `+s` plural as referenced table; if such a table
exists and its primary key equals the stripped name, emit a
`naming_pattern` relation at confidence 0.7 unless an equivalent
`foreign_key` relation for the same column pair already exists. -/
def naming_relation_for_column (schemas : Schemas) (fkRels : List TableRelation)
    (tname : String) (sch : TableSchema) (c : Column) : Option TableRelation :=
  if strEndsWith c.name "_id" && !(sch.primary_keys.contains c.name) then
    let base := stripIdSuffix c.name
    match candidateReferencedTable schemas base with
    | some cand =>
      if fk_covers fkRels tname c.name cand base then none
      else
        some { from_table := tname
               from_column := c.name
               to_table := cand
               to_column := base
               relation_type := "naming_pattern"
               confidence := mkRat 7 10 }
    | none => none
  else none

/-- Modelled from the spec: the whole naming-pattern pass over every column
of every table. -/
def naming_pattern_relations (schemas : Schemas) (fkRels : List TableRelation) :
    List TableRelation :=
  schemas.flatMap (fun p => p.2.columns.filterMap (naming_relation_for_column schemas fkRels p.1 p.2))

/-- Whether a graph edge is a `SEMANTIC_RELATION` edge. -/
def isSemanticEdge : GraphEdge → Bool
  | GraphEdge.semanticRel _ _ _ _ => true
  | GraphEdge.references _ _ _ _ _ _ => false

/-- Specification helper: the table pairs accepted by the judgment loop when
run against an empty `existing` list (every validity check is independent of
`existing`, and `pairExisting [] _ _ = false`, so these are exactly the
accepted pairs of a first run; the list stops at the first malformed
confidence, mirroring the `ValueError` abort). -/
def acceptedPairs (schemas : Schemas) : List Judgment → List (String × String)
  | [] => []
  | j :: rest =>
    match j.confidence.getD (ConfVal.val (mkRat 1 2)) with
    | ConfVal.malformed => []
    | ConfVal.val _ =>
      let t1 := j.table1.getD ""
      let t2 := j.table2.getD ""
      if tableExists schemas t1 && tableExists schemas t2 && !(t1 == t2) then
        (t1, t2) :: acceptedPairs schemas rest
      else
        acceptedPairs schemas rest

/-! ### Concrete fixtures used by counterexamples and witnesses -/

/-- A minimal table with no columns and no constraints. -/
def bareTable (n : String) : TableSchema :=
  { table_name := n, columns := [], primary_keys := [], foreign_keys := [] }

/-- A two-table schema `a`, `b` with no foreign keys. -/
def exSchemasAB : Schemas := [("a", bareTable "a"), ("b", bareTable "b")]

/-- An oracle response judging `a` related to `b` at confidence 0.8. -/
def exOracleAB : OracleResponse :=
  OracleResponse.judgments [{ table1 := some "a", table2 := some "b",
                              reason := some "shared id", confidence := some (ConfVal.val (mkRat 8 10)) }]

/-- A relation of kind `description_semantic` between `a` and `b`. -/
def exSemRelAB : TableRelation :=
  { from_table := "a", from_column := "", to_table := "b", to_column := "",
    relation_type := "description_semantic", confidence := mkRat 8 10 }

/-- The connections map for three tables `x`, `c`, `b` where both `c` and
`b` are at distance 1 from `x`. -/
def exConnsXCB : Connections :=
  [(("b", "x"), ⟨1, [⟨"x", "b", "x_id", "x_id", 1⟩]⟩),
   (("c", "x"), ⟨1, [⟨"x", "c", "x_id", "x_id", 1⟩]⟩)]

/-- Schema fixture for the naming-pattern pass: `order_items.order_id`
against a table `orders` whose primary key is the stripped name `order`. -/
def exItemsTable : TableSchema :=
  { table_name := "order_items"
    columns := [{ name := "order_id", type := "INT" }]
    primary_keys := ["order_item_id"]
    foreign_keys := [] }

/-- The referenced-table fixture for the naming-pattern pass. -/
def exOrdersTable : TableSchema :=
  { table_name := "orders", columns := [], primary_keys := ["order"], foreign_keys := [] }

/-- Two-table schema for the naming-pattern witness. -/
def exSchemasOI : Schemas := [("order_items", exItemsTable), ("orders", exOrdersTable)]

/-! ## Helper lemmas -/

theorem pyDedupAux_mem (a : String) :
    ∀ (xs seen : List String), a ∈ pyDedupAux xs seen ↔ a ∈ xs ∧ ¬ a ∈ seen := by
  intro xs
  induction xs with
  | nil => intro seen; simp [pyDedupAux]
  | cons x xs ih =>
    intro seen
    by_cases hxs : x ∈ seen
    · have hx : seen.contains x = true := by simpa using hxs
      rw [pyDedupAux, if_pos hx, ih]
      constructor
      · rintro ⟨h1, h2⟩; exact ⟨List.mem_cons.mpr (Or.inr h1), h2⟩
      · rintro ⟨h1, h2⟩
        rcases List.mem_cons.mp h1 with h | h
        · exact absurd (h ▸ hxs) h2
        · exact ⟨h, h2⟩
    · have hx : ¬ seen.contains x = true := by simpa using hxs
      rw [pyDedupAux, if_neg hx]
      constructor
      · intro h1
        rcases List.mem_cons.mp h1 with h | h
        · exact ⟨List.mem_cons.mpr (Or.inl h), h ▸ hxs⟩
        · rcases (ih (x :: seen)).mp h with ⟨h2, h3⟩
          exact ⟨List.mem_cons.mpr (Or.inr h2), fun hc => h3 (List.mem_cons.mpr (Or.inr hc))⟩
      · rintro ⟨h1, h2⟩
        rcases List.mem_cons.mp h1 with h | h
        · exact List.mem_cons.mpr (Or.inl h)
        · by_cases hax : a = x
          · exact List.mem_cons.mpr (Or.inl hax)
          · refine List.mem_cons.mpr (Or.inr ((ih (x :: seen)).mpr ⟨h, fun hc => ?_⟩))
            rcases List.mem_cons.mp hc with h' | h'
            · exact hax h'
            · exact h2 h'

theorem pyDedup_mem (a : String) (xs : List String) : a ∈ pyDedup xs ↔ a ∈ xs := by
  simp [pyDedup, pyDedupAux_mem]

theorem pyDedupAux_nodup : ∀ (xs seen : List String), (pyDedupAux xs seen).Nodup := by
  intro xs
  induction xs with
  | nil => intro seen; simp [pyDedupAux]
  | cons x xs ih =>
    intro seen
    by_cases hxs : x ∈ seen
    · have hx : seen.contains x = true := by simpa using hxs
      rw [pyDedupAux, if_pos hx]
      exact ih seen
    · have hx : ¬ seen.contains x = true := by simpa using hxs
      rw [pyDedupAux, if_neg hx]
      refine List.nodup_cons.mpr ⟨fun hc => ?_, ih (x :: seen)⟩
      exact ((pyDedupAux_mem x xs (x :: seen)).mp hc).2 (List.mem_cons_self x seen)

theorem pyDedup_nodup (xs : List String) : (pyDedup xs).Nodup := pyDedupAux_nodup xs []

theorem pyMax_foldl_mem (key : String → Nat) :
    ∀ (xs : List String) (x : String),
      xs.foldl (fun b t => if key t > key b then t else b) x ∈ x :: xs := by
  intro xs
  induction xs with
  | nil => intro x; exact List.mem_cons_self x []
  | cons y ys ih =>
    intro x
    have h := ih (if key y > key x then y else x)
    rcases List.mem_cons.mp h with h1 | h1
    · by_cases hk : key y > key x
      · rw [List.foldl_cons, h1, if_pos hk]
        exact List.mem_cons.mpr (Or.inr (List.mem_cons_self y ys))
      · rw [List.foldl_cons, h1, if_neg hk]
        exact List.mem_cons_self x (y :: ys)
    · rw [List.foldl_cons]
      exact List.mem_cons.mpr (Or.inr (List.mem_cons.mpr (Or.inr h1)))

theorem pyMax_foldl_ge (key : String → Nat) :
    ∀ (xs : List String) (x t : String), t ∈ x :: xs →
      key t ≤ key (xs.foldl (fun b t => if key t > key b then t else b) x) := by
  intro xs
  induction xs with
  | nil =>
    intro x t ht
    rcases List.mem_cons.mp ht with h | h
    · exact h ▸ le_refl _
    · exact absurd h (List.not_mem_nil t)
  | cons y ys ih =>
    intro x t ht
    rw [List.foldl_cons]
    have hx : key x ≤ key (if key y > key x then y else x) := by
      by_cases hk : key y > key x
      · rw [if_pos hk]; exact le_of_lt hk
      · rw [if_neg hk]
    have hy : key y ≤ key (if key y > key x then y else x) := by
      by_cases hk : key y > key x
      · rw [if_pos hk]
      · rw [if_neg hk]; exact le_of_not_lt hk
    have hz := ih (if key y > key x then y else x) (if key y > key x then y else x)
      (List.mem_cons_self _ ys)
    rcases List.mem_cons.mp ht with h | h
    · subst h; exact le_trans hx hz
    · rcases List.mem_cons.mp h with h1 | h1
      · subst h1; exact le_trans hy hz
      · exact ih _ t (List.mem_cons.mpr (Or.inr h1))

theorem pyMax_mem (key : String → Nat) (xs : List String) (a : String)
    (h : pyMax key xs = some a) : a ∈ xs := by
  cases xs with
  | nil => simp [pyMax] at h
  | cons x xs =>
    simp only [pyMax, Option.some.injEq] at h
    exact h ▸ pyMax_foldl_mem key xs x

theorem pyMax_ge (key : String → Nat) (xs : List String) (a : String)
    (h : pyMax key xs = some a) : ∀ t ∈ xs, key t ≤ key a := by
  cases xs with
  | nil => simp [pyMax] at h
  | cons x xs =>
    simp only [pyMax, Option.some.injEq] at h
    intro t ht
    exact h ▸ pyMax_foldl_ge key xs x t ht

theorem planLoop_prefix (conns : Connections) (start : String) :
    ∀ (fuel : Nat) (remaining : List String) (seq : List JoinStep),
      ∃ rest, planLoop conns start fuel remaining seq = seq ++ rest := by
  intro fuel
  induction fuel with
  | zero =>
    intro remaining seq
    cases remaining with
    | nil => exact ⟨[], by simp [planLoop]⟩
    | cons r rs => exact ⟨[], by simp [planLoop]⟩
  | succ fuel ih =>
    intro remaining seq
    cases remaining with
    | nil => exact ⟨[], by simp [planLoop]⟩
    | cons r rs =>
      cases hfb : findBest conns (r :: rs) (connectedOf start seq) with
      | none =>
        refine ⟨(r :: rs).map (fun t => ⟨t, []⟩), ?_⟩
        simp only [planLoop, hfb]
      | some best =>
        obtain ⟨t, d, js⟩ := best
        obtain ⟨rest, hrest⟩ := ih ((r :: rs).erase t) (seq ++ [⟨t, js⟩])
        refine ⟨⟨t, js⟩ :: rest, ?_⟩
        simp only [planLoop, hfb]
        rw [hrest, List.append_assoc]
        rfl

theorem processJudgments_acc (schemas : Schemas) (existing : List TableRelation) :
    ∀ (js : List Judgment) (acc : List TableRelation),
      processJudgments schemas existing js acc = acc ++ processJudgments schemas existing js [] := by
  intro js
  induction js with
  | nil => intro acc; simp [processJudgments]
  | cons j rest ih =>
    intro acc
    cases hc : j.confidence.getD (ConfVal.val (mkRat 1 2)) with
    | malformed => simp [processJudgments, hc]
    | val conf =>
      cases hval : (tableExists schemas (j.table1.getD "") &&
          tableExists schemas (j.table2.getD "") &&
          !(j.table1.getD "" == j.table2.getD "")) with
      | false =>
        simp only [processJudgments, hc, hval, Bool.false_eq_true, if_false]
        exact ih acc
      | true =>
        cases hex : pairExisting existing (j.table1.getD "") (j.table2.getD "") with
        | true =>
          simp only [processJudgments, hc, hval, if_true, hex]
          exact ih acc
        | false =>
          simp only [processJudgments, hc, hval, if_true, hex, Bool.false_eq_true, if_false]
          rw [ih (acc ++ [semanticRelation (j.table1.getD "") (j.table2.getD "") conf]),
            ih ([] ++ [semanticRelation (j.table1.getD "") (j.table2.getD "") conf])]
          simp [List.append_assoc]

theorem processJudgments_mem (schemas : Schemas) (existing : List TableRelation) :
    ∀ (js : List Judgment) (acc : List TableRelation) (r : TableRelation),
      r ∈ processJudgments schemas existing js acc →
      r ∈ acc ∨ ∃ t1 t2 conf, r = semanticRelation t1 t2 conf ∧
        tableExists schemas t1 = true ∧ tableExists schemas t2 = true ∧ t1 ≠ t2 ∧
        pairExisting existing t1 t2 = false := by
  intro js
  induction js with
  | nil => intro acc r hr; left; simpa [processJudgments] using hr
  | cons j rest ih =>
    intro acc r hr
    cases hc : j.confidence.getD (ConfVal.val (mkRat 1 2)) with
    | malformed =>
      left; simpa [processJudgments, hc] using hr
    | val conf =>
      cases hval : (tableExists schemas (j.table1.getD "") &&
          tableExists schemas (j.table2.getD "") &&
          !(j.table1.getD "" == j.table2.getD "")) with
      | false =>
        simp only [processJudgments, hc, hval, Bool.false_eq_true, if_false] at hr
        exact ih acc r hr
      | true =>
        cases hex : pairExisting existing (j.table1.getD "") (j.table2.getD "") with
        | true =>
          simp only [processJudgments, hc, hval, if_true, hex] at hr
          exact ih acc r hr
        | false =>
          simp only [processJudgments, hc, hval, if_true, hex, Bool.false_eq_true,
            if_false] at hr
          rcases ih _ r hr with h | h
          · rcases List.mem_append.mp h with h1 | h1
            · exact Or.inl h1
            · right
              have hr' : r = semanticRelation (j.table1.getD "") (j.table2.getD "") conf := by
                simpa using h1
              refine ⟨j.table1.getD "", j.table2.getD "", conf, hr', ?_, ?_, ?_, hex⟩
              · have := hval
                simp only [Bool.and_eq_true] at this
                exact this.1.1
              · have := hval
                simp only [Bool.and_eq_true] at this
                exact this.1.2
              · have := hval
                simp only [Bool.and_eq_true, Bool.not_eq_true', beq_eq_false_iff_ne] at this
                exact this.2
          · exact Or.inr h

theorem processJudgments_pairs (schemas : Schemas) :
    ∀ (js : List Judgment) (acc : List TableRelation),
      (processJudgments schemas [] js acc).map (fun r => (r.from_table, r.to_table)) =
        acc.map (fun r => (r.from_table, r.to_table)) ++ acceptedPairs schemas js := by
  intro js
  induction js with
  | nil => intro acc; simp [processJudgments, acceptedPairs]
  | cons j rest ih =>
    intro acc
    cases hc : j.confidence.getD (ConfVal.val (mkRat 1 2)) with
    | malformed => simp [processJudgments, acceptedPairs, hc]
    | val conf =>
      cases hval : (tableExists schemas (j.table1.getD "") &&
          tableExists schemas (j.table2.getD "") &&
          !(j.table1.getD "" == j.table2.getD "")) with
      | false =>
        simp only [processJudgments, acceptedPairs, hc, hval, Bool.false_eq_true, if_false]
        exact ih acc
      | true =>
        have hex : pairExisting [] (j.table1.getD "") (j.table2.getD "") = false := by
          simp [pairExisting]
        simp only [processJudgments, acceptedPairs, hc, hval, if_true, hex,
          Bool.false_eq_true, if_false]
        rw [ih (acc ++ [semanticRelation (j.table1.getD "") (j.table2.getD "") conf])]
        simp [semanticRelation, List.append_assoc]

theorem pairExisting_of_mem_pairs (rels : List TableRelation) (t1 t2 : String)
    (h : (t1, t2) ∈ rels.map (fun r => (r.from_table, r.to_table))) :
    pairExisting rels t1 t2 = true := by
  rcases List.mem_map.mp h with ⟨r, hr, heq⟩
  have h1 : r.from_table = t1 := congrArg Prod.fst heq
  have h2 : r.to_table = t2 := congrArg Prod.snd heq
  refine List.any_eq_true.mpr ⟨r, hr, ?_⟩
  simp [h1, h2]

theorem pairExisting_append_right (rels1 rels2 : List TableRelation) (t1 t2 : String)
    (h : pairExisting rels2 t1 t2 = true) :
    pairExisting (rels1 ++ rels2) t1 t2 = true := by
  simp only [pairExisting, List.any_append]
  simp only [pairExisting] at h
  simp [h]

theorem processJudgments_blocked (schemas : Schemas) (E : List TableRelation) :
    ∀ (js : List Judgment) (acc : List TableRelation),
      (∀ pr ∈ acceptedPairs schemas js, pairExisting E pr.1 pr.2 = true) →
      processJudgments schemas E js acc = acc := by
  intro js
  induction js with
  | nil => intro acc _; simp [processJudgments]
  | cons j rest ih =>
    intro acc hblock
    cases hc : j.confidence.getD (ConfVal.val (mkRat 1 2)) with
    | malformed => simp [processJudgments, hc]
    | val conf =>
      cases hval : (tableExists schemas (j.table1.getD "") &&
          tableExists schemas (j.table2.getD "") &&
          !(j.table1.getD "" == j.table2.getD "")) with
      | false =>
        simp only [processJudgments, hc, hval, Bool.false_eq_true, if_false]
        refine ih acc (fun pr hpr => hblock pr ?_)
        simpa [acceptedPairs, hc, hval] using hpr
      | true =>
        have hex : pairExisting E (j.table1.getD "") (j.table2.getD "") = true := by
          have : ((j.table1.getD "", j.table2.getD "") : String × String) ∈
              acceptedPairs schemas (j :: rest) := by
            simp [acceptedPairs, hc, hval]
          exact hblock _ this
        simp only [processJudgments, hc, hval, if_true, hex]
        refine ih acc (fun pr hpr => hblock pr ?_)
        simp [acceptedPairs, hc, hval]
        exact Or.inr hpr

theorem attachColumns_fields (schemas : Schemas) (r : TableRelation) :
    (attachColumns schemas r).from_table = r.from_table ∧
    (attachColumns schemas r).to_table = r.to_table ∧
    (attachColumns schemas r).relation_type = r.relation_type ∧
    (attachColumns schemas r).confidence = r.confidence := by
  unfold attachColumns
  split
  · split <;> simp
  · simp

theorem extract_fk_relations_fields (schemas : Schemas) (r : TableRelation)
    (hr : r ∈ extract_fk_relations schemas) :
    r.relation_type = "foreign_key" ∧ r.confidence = 1 := by
  rcases List.mem_flatMap.mp hr with ⟨p, hp, hr2⟩
  rcases List.mem_map.mp hr2 with ⟨fk, hfk, heq⟩
  subst heq
  exact ⟨rfl, rfl⟩

theorem analyze_mem (schemas : Schemas) (existing : List TableRelation)
    (resp : OracleResponse) (r : TableRelation)
    (hr : r ∈ analyze_semantic_relationships_with_llm schemas existing resp) :
    ∃ t1 t2 conf, r = semanticRelation t1 t2 conf ∧
      tableExists schemas t1 = true ∧ tableExists schemas t2 = true ∧ t1 ≠ t2 ∧
      pairExisting existing t1 t2 = false := by
  cases resp with
  | noResponse => simp [analyze_semantic_relationships_with_llm] at hr
  | unparseable => simp [analyze_semantic_relationships_with_llm] at hr
  | judgments js =>
    rcases processJudgments_mem schemas existing js [] r hr with h | h
    · simp at h
    · exact h

theorem firstRun_pairs (schemas : Schemas) (js : List Judgment) (pr : String × String)
    (hpr : pr ∈ acceptedPairs schemas js) :
    pairExisting (extract_table_relations schemas [] (OracleResponse.judgments js))
      pr.1 pr.2 = true := by
  have hmap : ((processJudgments schemas [] js []).map (attachColumns schemas)).map
      (fun r => (r.from_table, r.to_table)) =
        (processJudgments schemas [] js []).map (fun r => (r.from_table, r.to_table)) := by
    rw [List.map_map]
    refine List.map_congr_left (fun r _ => ?_)
    have h := attachColumns_fields schemas r
    simp [Function.comp, h.1, h.2.1]
  have hpairs : pr ∈ ((processJudgments schemas [] js []).map (attachColumns schemas)).map
      (fun r => (r.from_table, r.to_table)) := by
    rw [hmap, processJudgments_pairs schemas js []]
    simpa using hpr
  have hpe : pairExisting ((processJudgments schemas [] js []).map (attachColumns schemas))
      pr.1 pr.2 = true := by
    refine pairExisting_of_mem_pairs _ pr.1 pr.2 ?_
    simpa using hpairs
  unfold extract_table_relations analyze_semantic_relationships_with_llm
  exact pairExisting_append_right _ _ _ _ hpe

theorem second_run_fk_only (schemas : Schemas) (resp : OracleResponse) :
    extract_table_relations schemas (extract_table_relations schemas [] resp) resp =
      extract_fk_relations schemas := by
  cases resp with
  | noResponse => simp [extract_table_relations, analyze_semantic_relationships_with_llm]
  | unparseable => simp [extract_table_relations, analyze_semantic_relationships_with_llm]
  | judgments js =>
    have hblocked : processJudgments schemas
        (extract_table_relations schemas [] (OracleResponse.judgments js)) js [] = [] :=
      processJudgments_blocked schemas _ js []
        (fun pr hpr => firstRun_pairs schemas js pr hpr)
    calc extract_table_relations schemas
          (extract_table_relations schemas [] (OracleResponse.judgments js))
          (OracleResponse.judgments js)
        = extract_fk_relations schemas ++
            (processJudgments schemas
              (extract_table_relations schemas [] (OracleResponse.judgments js)) js []).map
              (attachColumns schemas) := rfl
      _ = extract_fk_relations schemas := by rw [hblocked]; simp

theorem extract_fk_relations_map (schemas : Schemas) :
    (extract_fk_relations schemas).map
        (fun r => (r.from_table, r.from_column, r.to_table, r.to_column, r.confidence)) =
      schemas.flatMap (fun p => p.2.foreign_keys.map
        (fun fk => (p.1, fk.from_column, fk.to_table, fk.to_column, (1 : ℚ)))) := by
  unfold extract_fk_relations
  rw [List.map_flatMap]
  refine congrArg _ (funext fun p => ?_)
  rw [List.map_map]
  rfl

theorem extract_filter_fk (schemas : Schemas) (prev : List TableRelation)
    (resp : OracleResponse) :
    (extract_table_relations schemas prev resp).filter
        (fun r => r.relation_type == "foreign_key") = extract_fk_relations schemas := by
  unfold extract_table_relations
  rw [List.filter_append]
  have h1 : (extract_fk_relations schemas).filter
      (fun r => r.relation_type == "foreign_key") = extract_fk_relations schemas := by
    refine List.filter_eq_self.mpr (fun r hr => ?_)
    simp [(extract_fk_relations_fields schemas r hr).1]
  have h2 : ((analyze_semantic_relationships_with_llm schemas prev resp).map
      (attachColumns schemas)).filter (fun r => r.relation_type == "foreign_key") = [] := by
    refine List.filter_eq_nil_iff.mpr (fun r hr => ?_)
    rcases List.mem_map.mp hr with ⟨r0, hr0, heq⟩
    rcases analyze_mem schemas prev resp r0 hr0 with ⟨t1, t2, conf, hr0eq, -, -, -, -⟩
    have hty : r.relation_type = "description_semantic" := by
      rw [← heq, (attachColumns_fields schemas r0).2.2.1, hr0eq]
      rfl
    simp [hty]
  rw [h1, h2, List.append_nil]

theorem filter_sem_edges (schemas : Schemas) :
    ∀ rels : List TableRelation,
      (∀ r ∈ rels, r.relation_type = "description_semantic" →
        tableExists schemas r.from_table = true ∧ tableExists schemas r.to_table = true) →
      (create_schema_graph_edges schemas rels).filter isSemanticEdge =
        (rels.filter (fun r => r.relation_type == "description_semantic")).flatMap
          (fun r =>
            [GraphEdge.semanticRel r.from_table r.to_table r.relation_type r.confidence,
             GraphEdge.semanticRel r.to_table r.from_table r.relation_type r.confidence]) := by
  intro rels
  induction rels with
  | nil => intro _; rfl
  | cons r rest ih =>
    intro h
    have hrest := ih (fun x hx hsx => h x (List.mem_cons.mpr (Or.inr hx)) hsx)
    by_cases hsem : r.relation_type = "description_semantic"
    · rcases h r (List.mem_cons_self r rest) hsem with ⟨h1, h2⟩
      have hg : (tableExists schemas r.from_table && tableExists schemas r.to_table) = true := by
        simp [h1, h2]
      simp only [create_schema_graph_edges, List.flatMap_cons, hg, if_true,
        List.filter_append, List.filter_cons]
      rw [← create_schema_graph_edges]
      simp only [edgesOfRelation, hsem, beq_self_eq_true, if_true]
      simp only [isSemanticEdge, List.filter_cons, List.filter_nil]
      rw [hrest]
      simp [List.flatMap_cons, hsem]
    · have hedges : edgesOfRelation r =
          [GraphEdge.references r.from_table r.to_table r.from_column r.to_column
            r.relation_type r.confidence] := by
        simp only [edgesOfRelation]
        rw [if_neg]
        simp [hsem]
      simp only [create_schema_graph_edges, List.flatMap_cons, List.filter_append]
      rw [← create_schema_graph_edges]
      have hhead : (if (tableExists schemas r.from_table &&
          tableExists schemas r.to_table) = true then edgesOfRelation r else []).filter
            isSemanticEdge = [] := by
        by_cases hguard : (tableExists schemas r.from_table &&
            tableExists schemas r.to_table) = true
        · rw [if_pos hguard, hedges]
          rfl
        · rw [if_neg hguard]
          rfl
      rw [hhead, hrest]
      have : (List.filter (fun r => r.relation_type == "description_semantic") (r :: rest)) =
          List.filter (fun r => r.relation_type == "description_semantic") rest := by
        rw [List.filter_cons]
        simp [hsem]
      rw [this]
      rfl

theorem innerFold_some (conns : Connections) (r : String) :
    ∀ (cs : List String) (t0 : String) (d0 : Nat) (js0 : List JoinPredicate),
      ∃ t d js, cs.foldl (fun a c => considerPair conns c r a) (some (t0, d0, js0)) =
        some (t, d, js) ∧ d ≤ d0 := by
  intro cs
  induction cs with
  | nil => intro t0 d0 js0; exact ⟨t0, d0, js0, rfl, le_refl d0⟩
  | cons c cs ih =>
    intro t0 d0 js0
    rw [List.foldl_cons]
    cases hlk : lookupConn conns c r with
    | none =>
      simpa [considerPair, hlk] using ih t0 d0 js0
    | some conn =>
      by_cases hd : conn.distance < d0
      · obtain ⟨t, d, js, heq, hle⟩ := ih r conn.distance conn.relationships
        exact ⟨t, d, js, by simpa [considerPair, hlk, hd] using heq,
          le_trans hle (le_of_lt hd)⟩
      · obtain ⟨t, d, js, heq, hle⟩ := ih t0 d0 js0
        exact ⟨t, d, js, by simpa [considerPair, hlk, hd] using heq, hle⟩

theorem innerFold_mono (conns : Connections) (r : String) (cs : List String)
    (t0 t : String) (d0 d : Nat) (js0 js : List JoinPredicate)
    (h : cs.foldl (fun a c => considerPair conns c r a) (some (t0, d0, js0)) =
      some (t, d, js)) : d ≤ d0 := by
  obtain ⟨t', d', js', heq, hle⟩ := innerFold_some conns r cs t0 d0 js0
  rw [heq] at h
  cases h
  exact hle

theorem innerFold_none (conns : Connections) (r : String) :
    ∀ (cs : List String) (acc : Option (String × Nat × List JoinPredicate)),
      cs.foldl (fun a c => considerPair conns c r a) acc = none →
      acc = none ∧ ∀ c ∈ cs, lookupConn conns c r = none := by
  intro cs
  induction cs with
  | nil => intro acc h; exact ⟨h, by simp⟩
  | cons c cs ih =>
    intro acc h
    rw [List.foldl_cons] at h
    obtain ⟨h1, h2⟩ := ih _ h
    cases hlk : lookupConn conns c r with
    | none =>
      have hacc : acc = none := by simpa [considerPair, hlk] using h1
      refine ⟨hacc, fun c' hc' => ?_⟩
      rcases List.mem_cons.mp hc' with h' | h'
      · exact h' ▸ hlk
      · exact h2 c' h'
    | some conn =>
      exfalso
      cases hacc : acc with
      | none => simp [considerPair, hlk, hacc] at h1
      | some best =>
        obtain ⟨tb, db, jsb⟩ := best
        by_cases hd : conn.distance < db <;> simp [considerPair, hlk, hacc, hd] at h1

theorem innerFold_bound (conns : Connections) (r : String) :
    ∀ (cs : List String) (acc : Option (String × Nat × List JoinPredicate))
      (t : String) (d : Nat) (js : List JoinPredicate),
      cs.foldl (fun a c => considerPair conns c r a) acc = some (t, d, js) →
      ∀ c ∈ cs, ∀ conn, lookupConn conns c r = some conn → d ≤ conn.distance := by
  intro cs
  induction cs with
  | nil => intro acc t d js _ c hc; exact absurd hc (List.not_mem_nil c)
  | cons c0 cs ih =>
    intro acc t d js h c hc conn hlkc
    rw [List.foldl_cons] at h
    rcases List.mem_cons.mp hc with hceq | hcm
    · subst hceq
      cases hacc : acc with
      | none =>
        rw [hacc] at h
        simp only [considerPair, hlkc] at h
        exact innerFold_mono conns r cs _ _ _ _ _ _ h
      | some best =>
        obtain ⟨tb, db, jsb⟩ := best
        rw [hacc] at h
        simp only [considerPair, hlkc] at h
        by_cases hd : conn.distance < db
        · rw [if_pos hd] at h
          exact innerFold_mono conns r cs _ _ _ _ _ _ h
        · rw [if_neg hd] at h
          have hdb := innerFold_mono conns r cs _ _ _ _ _ _ h
          exact le_trans hdb (le_of_not_lt hd)
    · exact ih _ t d js h c hcm conn hlkc

theorem innerFold_prov (conns : Connections) (r : String) :
    ∀ (cs : List String) (acc : Option (String × Nat × List JoinPredicate)),
      cs.foldl (fun a c => considerPair conns c r a) acc = acc ∨
      ∃ c ∈ cs, ∃ conn, lookupConn conns c r = some conn ∧
        cs.foldl (fun a c => considerPair conns c r a) acc =
          some (r, conn.distance, conn.relationships) := by
  intro cs
  induction cs with
  | nil => intro acc; exact Or.inl rfl
  | cons c0 cs ih =>
    intro acc
    rw [List.foldl_cons]
    cases hlk : lookupConn conns c0 r with
    | none =>
      have hstep : considerPair conns c0 r acc = acc := by simp [considerPair, hlk]
      rw [hstep]
      rcases ih acc with h | ⟨c, hc, conn, hlkc, heq⟩
      · exact Or.inl h
      · exact Or.inr ⟨c, List.mem_cons.mpr (Or.inr hc), conn, hlkc, heq⟩
    | some conn0 =>
      cases hacc : acc with
      | none =>
        have hstep : considerPair conns c0 r none =
            some (r, conn0.distance, conn0.relationships) := by simp [considerPair, hlk]
        rw [hstep]
        rcases ih (some (r, conn0.distance, conn0.relationships)) with h | ⟨c, hc, conn, hlkc, heq⟩
        · exact Or.inr ⟨c0, List.mem_cons_self c0 cs, conn0, hlk, h⟩
        · exact Or.inr ⟨c, List.mem_cons.mpr (Or.inr hc), conn, hlkc, heq⟩
      | some best =>
        obtain ⟨tb, db, jsb⟩ := best
        by_cases hd : conn0.distance < db
        · have hstep : considerPair conns c0 r (some (tb, db, jsb)) =
              some (r, conn0.distance, conn0.relationships) := by
            simp [considerPair, hlk, hd]
          rw [hstep]
          rcases ih (some (r, conn0.distance, conn0.relationships)) with h | ⟨c, hc, conn, hlkc, heq⟩
          · exact Or.inr ⟨c0, List.mem_cons_self c0 cs, conn0, hlk, h⟩
          · exact Or.inr ⟨c, List.mem_cons.mpr (Or.inr hc), conn, hlkc, heq⟩
        · have hstep : considerPair conns c0 r (some (tb, db, jsb)) = some (tb, db, jsb) := by
            simp [considerPair, hlk, hd]
          rw [hstep]
          rcases ih (some (tb, db, jsb)) with h | ⟨c, hc, conn, hlkc, heq⟩
          · exact Or.inl h
          · exact Or.inr ⟨c, List.mem_cons.mpr (Or.inr hc), conn, hlkc, heq⟩

theorem outerFold_some (conns : Connections) (connected : List String) :
    ∀ (rs : List String) (t0 : String) (d0 : Nat) (js0 : List JoinPredicate),
      ∃ t d js,
        rs.foldl (fun acc r => connected.foldl (fun a c => considerPair conns c r a) acc)
          (some (t0, d0, js0)) = some (t, d, js) ∧ d ≤ d0 := by
  intro rs
  induction rs with
  | nil => intro t0 d0 js0; exact ⟨t0, d0, js0, rfl, le_refl d0⟩
  | cons r0 rs ih =>
    intro t0 d0 js0
    rw [List.foldl_cons]
    obtain ⟨t1, d1, js1, heq1, hle1⟩ := innerFold_some conns r0 connected t0 d0 js0
    rw [heq1]
    obtain ⟨t, d, js, heq, hle⟩ := ih t1 d1 js1
    exact ⟨t, d, js, heq, le_trans hle hle1⟩

theorem outerFold_mono (conns : Connections) (connected : List String) (rs : List String)
    (t0 t : String) (d0 d : Nat) (js0 js : List JoinPredicate)
    (h : rs.foldl (fun acc r => connected.foldl (fun a c => considerPair conns c r a) acc)
      (some (t0, d0, js0)) = some (t, d, js)) : d ≤ d0 := by
  obtain ⟨t', d', js', heq, hle⟩ := outerFold_some conns connected rs t0 d0 js0
  rw [heq] at h
  cases h
  exact hle

theorem outerFold_none (conns : Connections) (connected : List String) :
    ∀ (rs : List String) (acc : Option (String × Nat × List JoinPredicate)),
      rs.foldl (fun acc r => connected.foldl (fun a c => considerPair conns c r a) acc)
        acc = none →
      acc = none ∧ ∀ r ∈ rs, ∀ c ∈ connected, lookupConn conns c r = none := by
  intro rs
  induction rs with
  | nil => intro acc h; exact ⟨h, by simp⟩
  | cons r0 rs ih =>
    intro acc h
    rw [List.foldl_cons] at h
    obtain ⟨h1, h2⟩ := ih _ h
    obtain ⟨hacc, h3⟩ := innerFold_none conns r0 connected acc h1
    refine ⟨hacc, fun r hr c hc => ?_⟩
    rcases List.mem_cons.mp hr with h' | h'
    · exact h' ▸ h3 c hc
    · exact h2 r h' c hc

theorem findBest_none (conns : Connections) (remaining connected : List String)
    (h : findBest conns remaining connected = none) :
    ∀ r ∈ remaining, ∀ c ∈ connected, lookupConn conns c r = none := by
  exact (outerFold_none conns connected remaining none h).2

theorem outerFold_bound (conns : Connections) (connected : List String) :
    ∀ (rs : List String) (acc : Option (String × Nat × List JoinPredicate))
      (t : String) (d : Nat) (js : List JoinPredicate),
      rs.foldl (fun acc r => connected.foldl (fun a c => considerPair conns c r a) acc)
        acc = some (t, d, js) →
      ∀ r ∈ rs, ∀ c ∈ connected, ∀ conn, lookupConn conns c r = some conn →
        d ≤ conn.distance := by
  intro rs
  induction rs with
  | nil => intro acc t d js _ r hr; exact absurd hr (List.not_mem_nil r)
  | cons r0 rs ih =>
    intro acc t d js h r hr c hc conn hlk
    rw [List.foldl_cons] at h
    rcases List.mem_cons.mp hr with hreq | hrm
    · subst hreq
      cases hacc1 : connected.foldl (fun a c => considerPair conns c r a) acc with
      | none =>
        exact absurd hlk (by simp [(innerFold_none conns r connected acc hacc1).2 c hc])
      | some best =>
        obtain ⟨t1, d1, js1⟩ := best
        have hd1 := innerFold_bound conns r connected acc t1 d1 js1 hacc1 c hc conn hlk
        rw [hacc1] at h
        exact le_trans (outerFold_mono conns connected rs _ _ _ _ _ _ h) hd1
    · exact ih _ t d js h r hrm c hc conn hlk

theorem outerFold_prov (conns : Connections) (connected : List String) :
    ∀ (rs : List String) (acc : Option (String × Nat × List JoinPredicate)),
      rs.foldl (fun acc r => connected.foldl (fun a c => considerPair conns c r a) acc)
        acc = acc ∨
      ∃ r ∈ rs, ∃ conn, (∃ c ∈ connected, lookupConn conns c r = some conn) ∧
        rs.foldl (fun acc r => connected.foldl (fun a c => considerPair conns c r a) acc)
          acc = some (r, conn.distance, conn.relationships) := by
  intro rs
  induction rs with
  | nil => intro acc; exact Or.inl rfl
  | cons r0 rs ih =>
    intro acc
    rw [List.foldl_cons]
    rcases innerFold_prov conns r0 connected acc with hacc1 | ⟨c, hc, conn, hlk, hacc1⟩
    · rw [hacc1]
      rcases ih acc with h | ⟨r, hr, conn, hcl, heq⟩
      · exact Or.inl h
      · exact Or.inr ⟨r, List.mem_cons.mpr (Or.inr hr), conn, hcl, heq⟩
    · rw [hacc1]
      rcases ih (some (r0, conn.distance, conn.relationships)) with h | ⟨r, hr, conn', hcl, heq⟩
      · exact Or.inr ⟨r0, List.mem_cons_self r0 rs, conn, ⟨c, hc, hlk⟩, h⟩
      · exact Or.inr ⟨r, List.mem_cons.mpr (Or.inr hr), conn', hcl, heq⟩

theorem findBest_min (conns : Connections) (remaining connected : List String)
    (t : String) (d : Nat) (js : List JoinPredicate)
    (h : findBest conns remaining connected = some (t, d, js)) :
    ∀ r ∈ remaining, ∀ c ∈ connected, ∀ conn, lookupConn conns c r = some conn →
      d ≤ conn.distance := by
  unfold findBest at h
  exact outerFold_bound conns connected remaining none t d js h

theorem findBest_some (conns : Connections) (remaining connected : List String)
    (t : String) (d : Nat) (js : List JoinPredicate)
    (h : findBest conns remaining connected = some (t, d, js)) :
    t ∈ remaining ∧ ∃ c ∈ connected, ∃ conn, lookupConn conns c t = some conn ∧
      conn.distance = d ∧ conn.relationships = js := by
  unfold findBest at h
  rcases outerFold_prov conns connected remaining none with h1 | ⟨r, hr, conn, ⟨c, hc, hlk⟩, heq⟩
  · rw [h1] at h; cases h
  · rw [heq] at h
    obtain ⟨ht, hd, hjs⟩ : t = r ∧ conn.distance = d ∧ conn.relationships = js := by
      cases h; exact ⟨rfl, rfl, rfl⟩
    subst ht
    exact ⟨hr, c, hc, conn, hlk, hd, hjs⟩

theorem planLoop_tables (conns : Connections) (start : String) :
    ∀ (fuel : Nat) (remaining : List String) (seq : List JoinStep),
      remaining.length ≤ fuel →
      ((planLoop conns start fuel remaining seq).map (fun s => s.table)).Perm
        (seq.map (fun s => s.table) ++ remaining) := by
  intro fuel
  induction fuel with
  | zero =>
    intro remaining seq hlen
    have hnil : remaining = [] := List.length_eq_zero.mp (Nat.le_zero.mp hlen)
    subst hnil
    simp [planLoop]
  | succ fuel ih =>
    intro remaining seq hlen
    cases remaining with
    | nil => simp [planLoop]
    | cons r rs =>
      cases hfb : findBest conns (r :: rs) (connectedOf start seq) with
      | none =>
        simp only [planLoop, hfb]
        rw [List.map_append, List.map_map]
        have hmapid : (r :: rs).map
            ((fun s => s.table) ∘ (fun t => (⟨t, []⟩ : JoinStep))) = (r :: rs).map id :=
          List.map_congr_left (fun a _ => rfl)
        rw [hmapid, List.map_id]
      | some best =>
        obtain ⟨t, d, js⟩ := best
        have htm := (findBest_some conns (r :: rs) (connectedOf start seq) t d js hfb).1
        simp only [planLoop, hfb]
        have hlen' : ((r :: rs).erase t).length ≤ fuel := by
          rw [List.length_erase_of_mem htm]
          simpa using Nat.le_of_succ_le_succ hlen
        have hperm := ih ((r :: rs).erase t) (seq ++ [⟨t, js⟩]) hlen'
        refine hperm.trans ?_
        rw [List.map_append, List.append_assoc]
        refine List.Perm.append_left _ ?_
        exact (List.perm_cons_erase htm).symm

theorem find_optimal_unfold (required : List String) (conns : Connections)
    (h2 : 2 ≤ required.length) (hne : conns.isEmpty = false) (start : String)
    (hmax : pyMax (connCount conns) required = some start) :
    find_optimal_join_sequence true required conns =
      planLoop conns start ((pyDedup required).erase start).length
        ((pyDedup required).erase start) [⟨start, []⟩] := by
  have hlt : decide (required.length < 2) = false := decide_eq_false (by omega)
  simp [find_optimal_join_sequence, hlt, hne, hmax]

theorem create_cons (schemas : Schemas) (r : TableRelation) (rest : List TableRelation) :
    create_schema_graph_edges schemas (r :: rest) =
      (if (tableExists schemas r.from_table && tableExists schemas r.to_table) = true then
        edgesOfRelation r else []) ++ create_schema_graph_edges schemas rest := by
  simp [create_schema_graph_edges, List.flatMap_cons]

theorem refAdjacent_append (e1 e2 : List GraphEdge) (a b : String) :
    refAdjacent (e1 ++ e2) a b = (refAdjacent e1 a b || refAdjacent e2 a b) := by
  simp [refAdjacent, List.any_append]

theorem anyAdjacent_append (e1 e2 : List GraphEdge) (a b : String) :
    anyAdjacent (e1 ++ e2) a b = (anyAdjacent e1 a b || anyAdjacent e2 a b) := by
  simp [anyAdjacent, List.any_append]

theorem refAdj_eq_filtered (schemas : Schemas) :
    ∀ (rels : List TableRelation) (a b : String),
      refAdjacent (create_schema_graph_edges schemas rels) a b =
        anyAdjacent (create_schema_graph_edges schemas
          (rels.filter (fun r => !(r.relation_type == "description_semantic")))) a b := by
  intro rels
  induction rels with
  | nil => intro a b; rfl
  | cons r rest ih =>
    intro a b
    by_cases hsem : r.relation_type = "description_semantic"
    · have hfilter : (r :: rest).filter (fun r => !(r.relation_type == "description_semantic")) =
          rest.filter (fun r => !(r.relation_type == "description_semantic")) := by
        simp [List.filter_cons, hsem]
      rw [hfilter, create_cons, refAdjacent_append]
      have hhead : refAdjacent (if (tableExists schemas r.from_table &&
          tableExists schemas r.to_table) = true then edgesOfRelation r else []) a b = false := by
        by_cases hg : (tableExists schemas r.from_table &&
            tableExists schemas r.to_table) = true
        · rw [if_pos hg]
          simp [edgesOfRelation, hsem, refAdjacent, isRefEdgeBetween]
        · rw [if_neg hg]
          rfl
      rw [hhead, Bool.false_or]
      exact ih a b
    · have hfilter : (r :: rest).filter (fun r => !(r.relation_type == "description_semantic")) =
          r :: rest.filter (fun r => !(r.relation_type == "description_semantic")) := by
        simp [List.filter_cons, hsem]
      rw [hfilter, create_cons, create_cons, refAdjacent_append, anyAdjacent_append]
      have hhead : refAdjacent (if (tableExists schemas r.from_table &&
          tableExists schemas r.to_table) = true then edgesOfRelation r else []) a b =
            anyAdjacent (if (tableExists schemas r.from_table &&
              tableExists schemas r.to_table) = true then edgesOfRelation r else []) a b := by
        by_cases hg : (tableExists schemas r.from_table &&
            tableExists schemas r.to_table) = true
        · rw [if_pos hg]
          have hedges : edgesOfRelation r =
              [GraphEdge.references r.from_table r.to_table r.from_column r.to_column
                r.relation_type r.confidence] := by
            simp only [edgesOfRelation]
            rw [if_neg]
            simp [hsem]
          rw [hedges]
          simp [refAdjacent, anyAdjacent, isRefEdgeBetween, isAnyEdgeBetween]
        · rw [if_neg hg]
          rfl
      rw [hhead, ih a b]

theorem minHopDistance_congr (adj1 adj2 : String → String → Bool)
    (h : ∀ x y, adj1 x y = adj2 x y) (nodes : List String) (a b : String) (bound : Nat) :
    minHopDistance adj1 nodes a b bound = minHopDistance adj2 nodes a b bound := by
  have hadj : adj1 = adj2 := funext (fun x => funext (fun y => h x y))
  rw [hadj]

/-! ## Claim theorems -/

/-- Claim C1, counterexample: for the empty required-table set the planner
returns the empty list — it does not fail with an `Unplannable` error (no
such exception exists anywhere in `query_gen.py`; the guard at lines
1214-1215 just returns `[]`) — and for a single required table it also
returns `[]` rather than exactly one anchor JoinStep, even with a
connection available. -/
theorem C1_counterexample :
    find_optimal_join_sequence true [] [(("orders", "users"), ⟨1, []⟩)] = [] ∧
    find_optimal_join_sequence true ["users"] [(("orders", "users"), ⟨1, []⟩)] = [] ∧
    ([] : List JoinStep) ≠ [⟨"users", []⟩] := by decide

/-- Claim C1 (corrected): `find_optimal_join_sequence` returns the empty
list — raising nothing — whenever fewer than two tables are required; no
`Unplannable` failure exists in the code for any input. -/
theorem C1_amended (neo4j_driver : Bool) (required : List String) (conns : Connections)
    (h : required.length < 2) :
    find_optimal_join_sequence neo4j_driver required conns = [] := by
  simp [find_optimal_join_sequence, h]

/-- Witness for `C1_amended` at a concrete input. -/
theorem C1_amended_witness :
    (["users"] : List String).length < 2 ∧
    find_optimal_join_sequence false ["users"] [] = [] :=
  ⟨by decide, C1_amended false ["users"] [] (by decide)⟩

/-- Claim C2 (spec-modelled: the naming-pattern pass is absent from the
source files; it is modelled from spec §4.1): for a column ending in `_id`
that is not its table's own primary key, when the candidate table obtained
by stripping the suffix (or its `+s` plural) exists with primary key equal
to the stripped name, a `naming_pattern` relation at confidence 0.7 is
emitted — and it is skipped when an equivalent `foreign_key` relation for
the same column pair exists. -/
theorem C2_naming_pattern (schemas : Schemas) (fkRels : List TableRelation)
    (tname : String) (sch : TableSchema) (c : Column) (cand : String)
    (hmem : (tname, sch) ∈ schemas) (hcol : c ∈ sch.columns)
    (hid : strEndsWith c.name "_id" = true)
    (hpk : sch.primary_keys.contains c.name = false)
    (hcand : candidateReferencedTable schemas (stripIdSuffix c.name) = some cand) :
    (fk_covers fkRels tname c.name cand (stripIdSuffix c.name) = false →
      ({ from_table := tname, from_column := c.name, to_table := cand,
         to_column := stripIdSuffix c.name, relation_type := "naming_pattern",
         confidence := mkRat 7 10 } : TableRelation) ∈
        naming_pattern_relations schemas fkRels) ∧
    (fk_covers fkRels tname c.name cand (stripIdSuffix c.name) = true →
      naming_relation_for_column schemas fkRels tname sch c = none) := by
  have hcond : (strEndsWith c.name "_id" && !(sch.primary_keys.contains c.name)) = true := by
    rw [hid, hpk]; rfl
  constructor
  · intro hnc
    refine List.mem_flatMap.mpr ⟨(tname, sch), hmem, ?_⟩
    refine List.mem_filterMap.mpr ⟨c, hcol, ?_⟩
    simp only [naming_relation_for_column, hcond, if_true, hcand, hnc, Bool.false_eq_true,
      if_false]
  · intro hc
    simp only [naming_relation_for_column, hcond, if_true, hcand, hc, if_true]

/-- Witness for `C2_naming_pattern` at a concrete schema. -/
theorem C2_naming_pattern_witness :
    (("order_items", exItemsTable) ∈ exSchemasOI ∧
      ({ name := "order_id", type := "INT" } : Column) ∈ exItemsTable.columns ∧
      strEndsWith "order_id" "_id" = true ∧
      exItemsTable.primary_keys.contains "order_id" = false ∧
      candidateReferencedTable exSchemasOI (stripIdSuffix "order_id") = some "orders" ∧
      fk_covers [] "order_items" "order_id" "orders" (stripIdSuffix "order_id") = false) ∧
    ({ from_table := "order_items", from_column := "order_id", to_table := "orders",
       to_column := stripIdSuffix "order_id", relation_type := "naming_pattern",
       confidence := mkRat 7 10 } : TableRelation) ∈
      naming_pattern_relations exSchemasOI [] :=
  ⟨⟨by decide, by decide, by decide, by decide, by decide, by decide⟩,
    (C2_naming_pattern exSchemasOI [] "order_items" exItemsTable
      { name := "order_id", type := "INT" } "orders"
      (by decide) (by decide) (by decide) (by decide) (by decide)).1 (by decide)⟩

/-- Claim C3: every accepted semantic pair is materialized in the graph as
exactly two directed `SEMANTIC_RELATION` edges, A→B and B→A, each carrying
the relation's confidence and — by the shape of the `semanticRel` edge —
no column names (even though `extract_table_relations` may attach candidate
column names to the in-memory relation, the edge creation at
query_gen.py:923-944 passes none).  The semantic edges of the rebuilt
graph are exactly the two directed edges of each `description_semantic`
relation of the extraction output. -/
theorem C3_two_directed_edges (schemas : Schemas) (prev : List TableRelation)
    (resp : OracleResponse) :
    (create_schema_graph_edges schemas (extract_table_relations schemas prev resp)).filter
        isSemanticEdge =
      ((extract_table_relations schemas prev resp).filter
        (fun r => r.relation_type == "description_semantic")).flatMap
        (fun r =>
          [GraphEdge.semanticRel r.from_table r.to_table r.relation_type r.confidence,
           GraphEdge.semanticRel r.to_table r.from_table r.relation_type r.confidence]) := by
  refine filter_sem_edges schemas _ (fun r hr hty => ?_)
  unfold extract_table_relations at hr
  rcases List.mem_append.mp hr with h | h
  · have hfk := (extract_fk_relations_fields schemas r h).1
    rw [hfk] at hty
    exact absurd hty (by decide)
  · rcases List.mem_map.mp h with ⟨r0, hr0, heq⟩
    rcases analyze_mem schemas prev resp r0 hr0 with ⟨t1, t2, conf, hr0eq, h1, h2, -, -⟩
    have hf := attachColumns_fields schemas r0
    subst heq
    constructor
    · rw [hf.1, hr0eq]; exact h1
    · rw [hf.2.1, hr0eq]; exact h2

/-- Claim C4, counterexample: a judgment that passes the table-existence,
distinctness and non-duplication checks but omits the `confidence` field is
not dropped — it is accepted with the default confidence 0.5
(`rel_data.get('confidence', 0.5)` at query_gen.py:842). -/
theorem C4_counterexample :
    analyze_semantic_relationships_with_llm exSchemasAB []
        (OracleResponse.judgments [{ table1 := some "a", table2 := some "b" }]) =
      [{ from_table := "a", from_column := "", to_table := "b", to_column := "",
         relation_type := "description_semantic", confidence := mkRat 1 2 }] := by decide

/-- Claim C4 (corrected): every relation accepted from the oracle names two
existing distinct tables whose pair is not already present among the
relations consulted, has confidence clamped to at most 0.9, and carries no
column names; unparseable output and missing table-name fields yield no
relation and no exception, but a judgment missing only its confidence field
is accepted at default confidence 0.5 rather than dropped. -/
theorem C4_amended (schemas : Schemas) (existing : List TableRelation)
    (resp : OracleResponse) (r : TableRelation)
    (hr : r ∈ analyze_semantic_relationships_with_llm schemas existing resp) :
    tableExists schemas r.from_table = true ∧ tableExists schemas r.to_table = true ∧
    r.from_table ≠ r.to_table ∧ pairExisting existing r.from_table r.to_table = false ∧
    r.confidence ≤ mkRat 9 10 ∧ r.relation_type = "description_semantic" ∧
    r.from_column = "" ∧ r.to_column = "" := by
  rcases analyze_mem schemas existing resp r hr with ⟨t1, t2, conf, heq, h1, h2, h3, h4⟩
  subst heq
  exact ⟨h1, h2, h3, h4, min_le_right _ _, rfl, rfl, rfl⟩

/-- Witness for `C4_amended` at a concrete accepted relation. -/
theorem C4_amended_witness :
    semanticRelation "a" "b" (mkRat 8 10) ∈
        analyze_semantic_relationships_with_llm exSchemasAB [] exOracleAB ∧
    tableExists exSchemasAB (semanticRelation "a" "b" (mkRat 8 10)).from_table = true ∧
    (semanticRelation "a" "b" (mkRat 8 10)).confidence ≤ mkRat 9 10 :=
  ⟨by decide,
    (C4_amended exSchemasAB [] exOracleAB _ (by decide)).1,
    (C4_amended exSchemasAB [] exOracleAB _ (by decide)).2.2.2.2.1⟩

/-- Claim C5, counterexample: with `required_tables = ["b", "a"]` and a
single connection between `a` and `b`, both tables tie at one pairwise
connection, `"a"` precedes `"b"` in Python string order, yet the anchor is
`"b"` — Python `max` keeps the first maximum in input-list order, not the
alphabetically least. -/
theorem C5_counterexample :
    connCount [(("a", "b"), ⟨1, [⟨"b", "a", "aid", "aid", 1⟩]⟩)] "a" =
      connCount [(("a", "b"), ⟨1, [⟨"b", "a", "aid", "aid", 1⟩]⟩)] "b" ∧
    charListLe "a".data "b".data = true ∧
    (find_optimal_join_sequence true ["b", "a"]
        [(("a", "b"), ⟨1, [⟨"b", "a", "aid", "aid", 1⟩]⟩)]).head? =
      some ⟨"b", []⟩ := by decide

/-- Claim C5 (corrected): with at least two required tables and a nonempty
connections map, the first JoinStep is an anchor with empty predicates
whose table participates in the greatest number of known pairwise
connections — but ties are broken by earliest position in the
`required_tables` list (Python `max` keeps the first maximum), not by table
name ascending. -/
theorem C5_amended (required : List String) (conns : Connections)
    (h2 : 2 ≤ required.length) (hne : conns.isEmpty = false) :
    ∃ anchor, pyMax (connCount conns) required = some anchor ∧ anchor ∈ required ∧
      (∀ t ∈ required, connCount conns t ≤ connCount conns anchor) ∧
      (find_optimal_join_sequence true required conns).head? = some ⟨anchor, []⟩ := by
  obtain ⟨anchor, hmax⟩ : ∃ a, pyMax (connCount conns) required = some a := by
    cases required with
    | nil => simp at h2
    | cons x xs => exact ⟨_, rfl⟩
  refine ⟨anchor, hmax, pyMax_mem _ _ _ hmax, pyMax_ge _ _ _ hmax, ?_⟩
  rw [find_optimal_unfold required conns h2 hne anchor hmax]
  obtain ⟨rest, hrest⟩ := planLoop_prefix conns anchor
    ((pyDedup required).erase anchor).length ((pyDedup required).erase anchor)
    [⟨anchor, []⟩]
  rw [hrest]
  rfl

/-- Witness for `C5_amended` at a concrete input. -/
theorem C5_amended_witness :
    2 ≤ (["b", "a"] : List String).length ∧
    ([(("a", "b"), ⟨1, []⟩)] : Connections).isEmpty = false ∧
    (∃ anchor, pyMax (connCount [(("a", "b"), ⟨1, []⟩)]) ["b", "a"] = some anchor ∧
      anchor ∈ ["b", "a"] ∧
      (∀ t ∈ ["b", "a"],
        connCount [(("a", "b"), ⟨1, []⟩)] t ≤ connCount [(("a", "b"), ⟨1, []⟩)] anchor) ∧
      (find_optimal_join_sequence true ["b", "a"] [(("a", "b"), ⟨1, []⟩)]).head? =
        some ⟨anchor, []⟩) :=
  ⟨by decide, by decide, C5_amended ["b", "a"] [(("a", "b"), ⟨1, []⟩)] (by decide) (by decide)⟩

/-- Claim C6, counterexample: `c` and `b` both sit at distance 1 from the
anchor `x`; the claim's tie-break would add `b` first (`b` precedes `c` in
name order), but the code adds `c` first — the winner among equal-distance
candidates is determined by the iteration order of the remaining set
(first-insertion order in this embedding; Python set order is
implementation-defined), not by name. -/
theorem C6_counterexample :
    (lookupConn exConnsXCB "x" "b").map (fun conn => conn.distance) = some 1 ∧
    (lookupConn exConnsXCB "x" "c").map (fun conn => conn.distance) = some 1 ∧
    charListLe "b".data "c".data = true ∧
    (find_optimal_join_sequence true ["x", "c", "b"] exConnsXCB).map (fun s => s.table) =
      ["x", "c", "b"] := by decide

/-- Claim C6 (corrected): when the scan over remaining×connected finds a
best candidate, the loop appends that table as a JoinStep whose predicates
are precisely the relationship edges of its recorded shortest path, removes
it from the remaining set, and its distance is minimal among all
connections between remaining and connected tables; among equal-distance
candidates the winner depends on set-iteration order, not on name order. -/
theorem C6_amended (conns : Connections) (start : String) (fuel : Nat)
    (remaining : List String) (seq : List JoinStep) (t : String) (d : Nat)
    (js : List JoinPredicate)
    (hfb : findBest conns remaining (connectedOf start seq) = some (t, d, js)) :
    planLoop conns start (fuel + 1) remaining seq =
      planLoop conns start fuel (remaining.erase t) (seq ++ [⟨t, js⟩]) ∧
    t ∈ remaining ∧
    (∃ c ∈ connectedOf start seq, ∃ conn, lookupConn conns c t = some conn ∧
      conn.distance = d ∧ conn.relationships = js) ∧
    (∀ r ∈ remaining, ∀ c ∈ connectedOf start seq, ∀ conn,
      lookupConn conns c r = some conn → d ≤ conn.distance) := by
  obtain ⟨htm, hex⟩ := findBest_some conns remaining (connectedOf start seq) t d js hfb
  refine ⟨?_, htm, hex, findBest_min conns remaining (connectedOf start seq) t d js hfb⟩
  cases remaining with
  | nil => exact absurd htm (List.not_mem_nil t)
  | cons r rs => simp only [planLoop, hfb]

/-- Witness for `C6_amended` at a concrete planner state. -/
theorem C6_amended_witness :
    findBest [(("a", "b"), ⟨1, [⟨"a", "b", "id", "id", 1⟩]⟩)] ["b"]
        (connectedOf "a" [⟨"a", []⟩]) = some ("b", 1, [⟨"a", "b", "id", "id", 1⟩]) ∧
    (planLoop [(("a", "b"), ⟨1, [⟨"a", "b", "id", "id", 1⟩]⟩)] "a" 1 ["b"] [⟨"a", []⟩] =
      planLoop [(("a", "b"), ⟨1, [⟨"a", "b", "id", "id", 1⟩]⟩)] "a" 0 (["b"].erase "b")
        ([⟨"a", []⟩] ++ [⟨"b", [⟨"a", "b", "id", "id", 1⟩]⟩]) ∧
    "b" ∈ ["b"] ∧
    (∃ c ∈ connectedOf "a" [⟨"a", []⟩], ∃ conn,
      lookupConn [(("a", "b"), ⟨1, [⟨"a", "b", "id", "id", 1⟩]⟩)] c "b" = some conn ∧
      conn.distance = 1 ∧ conn.relationships = [⟨"a", "b", "id", "id", 1⟩]) ∧
    (∀ r ∈ ["b"], ∀ c ∈ connectedOf "a" [⟨"a", []⟩], ∀ conn,
      lookupConn [(("a", "b"), ⟨1, [⟨"a", "b", "id", "id", 1⟩]⟩)] c r = some conn →
      1 ≤ conn.distance)) :=
  ⟨by decide,
    C6_amended [(("a", "b"), ⟨1, [⟨"a", "b", "id", "id", 1⟩]⟩)] "a" 0 ["b"] [⟨"a", []⟩]
      "b" 1 [⟨"a", "b", "id", "id", 1⟩] (by decide)⟩

/-- Claim C7, counterexample: when no pair of the required tables has any
known connection (the connections dict is empty), the planner returns an
empty plan — it does not append a JoinStep for every required table
(`if connections:` at query_gen.py:1260 falls through to `return []`). -/
theorem C7_counterexample :
    find_optimal_join_sequence true ["a", "b"] [] = [] ∧
    ¬ ∃ s ∈ find_optimal_join_sequence true ["a", "b"] [], s.table = "a" := by decide

/-- Claim C7 (corrected): provided the connections map is nonempty, the
returned plan contains exactly one JoinStep per distinct required table (no
exception is possible — the planner is a total function), and whenever the
greedy scan finds no remaining table connected to the placed set, all
remaining tables are appended as JoinSteps with empty predicate lists; with
an empty connections map, however, the planner returns the empty list. -/
theorem C7_amended (required : List String) (conns : Connections)
    (h2 : 2 ≤ required.length) (hne : conns.isEmpty = false) :
    ((find_optimal_join_sequence true required conns).map (fun s => s.table)).Perm
        (pyDedup required) ∧
    (∀ t, t ∈ (find_optimal_join_sequence true required conns).map (fun s => s.table) ↔
      t ∈ required) ∧
    (∀ (start : String) (fuel : Nat) (remaining : List String) (seq : List JoinStep),
      findBest conns remaining (connectedOf start seq) = none →
      planLoop conns start (fuel + 1) remaining seq =
        seq ++ remaining.map (fun t => ⟨t, []⟩)) := by
  obtain ⟨anchor, hmax⟩ : ∃ a, pyMax (connCount conns) required = some a := by
    cases required with
    | nil => simp at h2
    | cons x xs => exact ⟨_, rfl⟩
  have hanchor : anchor ∈ pyDedup required :=
    (pyDedup_mem _ _).mpr (pyMax_mem _ _ _ hmax)
  have hperm : ((find_optimal_join_sequence true required conns).map
      (fun s => s.table)).Perm (pyDedup required) := by
    rw [find_optimal_unfold required conns h2 hne anchor hmax]
    have h := planLoop_tables conns anchor ((pyDedup required).erase anchor).length
      ((pyDedup required).erase anchor) [⟨anchor, []⟩] (le_refl _)
    exact h.trans (List.perm_cons_erase hanchor).symm
  refine ⟨hperm, fun t => ?_, fun start fuel remaining seq hfb => ?_⟩
  · constructor
    · intro ht; exact (pyDedup_mem _ _).mp (hperm.mem_iff.mp ht)
    · intro ht; exact hperm.mem_iff.mpr ((pyDedup_mem _ _).mpr ht)
  · cases remaining with
    | nil => simp [planLoop]
    | cons r rs => simp only [planLoop, hfb]

/-- Witness for `C7_amended` at a concrete input. -/
theorem C7_amended_witness :
    2 ≤ (["p", "q"] : List String).length ∧
    ([(("p", "q"), ⟨1, [⟨"p", "q", "pid", "pid", 1⟩]⟩)] : Connections).isEmpty = false ∧
    ((find_optimal_join_sequence true ["p", "q"]
        [(("p", "q"), ⟨1, [⟨"p", "q", "pid", "pid", 1⟩]⟩)]).map (fun s => s.table)).Perm
      (pyDedup ["p", "q"]) :=
  ⟨by decide, by decide,
    (C7_amended ["p", "q"] [(("p", "q"), ⟨1, [⟨"p", "q", "pid", "pid", 1⟩]⟩)]
      (by decide) (by decide)).1⟩

/-- Claim C8, counterexample: extraction is not idempotent.  On a two-table
schema with no FKs and an oracle accepting the pair `(a, b)`, the first run
yields one semantic relation; the second run consults the stored
`self.table_relations` (now containing that relation) in its duplicate
check (query_gen.py:850-854) and rejects the same pair, so the two runs
differ. -/
theorem C8_counterexample :
    extract_table_relations exSchemasAB
        (extract_table_relations exSchemasAB [] exOracleAB) exOracleAB ≠
      extract_table_relations exSchemasAB [] exOracleAB := by decide

/-- Claim C8 (corrected): the foreign-key part is exact and deterministic —
filtering any extraction output to kind `foreign_key` gives precisely the
FK pass, which emits exactly one relation per declared FK constraint with
confidence exactly 1.0 — but a second run on unchanged input yields only
the foreign-key relations: semantic pairs accepted in the first run are
suppressed by the already-present check, so the runs agree exactly when
the first accepts no semantic pair. -/
theorem C8_amended (schemas : Schemas) (prev : List TableRelation) (resp : OracleResponse) :
    ((extract_table_relations schemas prev resp).filter
        (fun r => r.relation_type == "foreign_key") = extract_fk_relations schemas) ∧
    ((extract_fk_relations schemas).map (fun r =>
        (r.from_table, r.from_column, r.to_table, r.to_column, r.confidence)) =
      schemas.flatMap (fun p => p.2.foreign_keys.map
        (fun fk => (p.1, fk.from_column, fk.to_table, fk.to_column, (1 : ℚ))))) ∧
    (extract_table_relations schemas (extract_table_relations schemas [] resp) resp =
      extract_fk_relations schemas) :=
  ⟨extract_filter_fk schemas prev resp, extract_fk_relations_map schemas,
    second_run_fk_only schemas resp⟩

/-- Claim C9, counterexample: two tables linked only by a semantic relation
are at all-edge distance 1, but the Cypher query
`shortestPath((t1)-[:REFERENCES*1..3]-(t2))` traverses `REFERENCES` edges
only, so it finds no path at all — semantic edges are not "alike". -/
theorem C9_counterexample :
    spec_all_edges_distance exSchemasAB [exSemRelAB] "a" "b" = some 1 ∧
    shortest_path_query_distance exSchemasAB [exSemRelAB] "a" "b" = none := by decide

/-- Claim C9 (corrected): the pairwise shortest-path query computes the
minimum-hop distance over the undirected view of the `REFERENCES` edges
only (the `foreign_key`/`naming_pattern` kinds), bounded by 3 hops — it
behaves exactly as the spec's all-edge shortest path would on the relation
set with every `description_semantic` relation removed. -/
theorem C9_amended (schemas : Schemas) (rels : List TableRelation) (a b : String) :
    shortest_path_query_distance schemas rels a b =
      spec_all_edges_distance schemas
        (rels.filter (fun r => !(r.relation_type == "description_semantic"))) a b := by
  unfold shortest_path_query_distance spec_all_edges_distance
  exact minHopDistance_congr _ _ (fun x y => refAdj_eq_filtered schemas rels x y) _ _ _ _

/-- Claim C10: a judgment passing the existence, distinctness and
non-duplication checks whose `confidence` field is missing is accepted with
the default confidence 0.5 (`rel_data.get('confidence', 0.5)` then
`min(·, 0.9)` leaves 0.5 unchanged). -/
theorem C10_default_confidence (schemas : Schemas) (existing : List TableRelation)
    (j : Judgment) (rest : List Judgment)
    (hconf : j.confidence = none)
    (h1 : tableExists schemas (j.table1.getD "") = true)
    (h2 : tableExists schemas (j.table2.getD "") = true)
    (h3 : ¬ j.table1.getD "" = j.table2.getD "")
    (h4 : pairExisting existing (j.table1.getD "") (j.table2.getD "") = false) :
    analyze_semantic_relationships_with_llm schemas existing
        (OracleResponse.judgments (j :: rest)) =
      semanticRelation (j.table1.getD "") (j.table2.getD "") (mkRat 1 2) ::
        processJudgments schemas existing rest [] ∧
    (semanticRelation (j.table1.getD "") (j.table2.getD "") (mkRat 1 2)).confidence =
      mkRat 1 2 := by
  constructor
  · show processJudgments schemas existing (j :: rest) [] = _
    have hget : j.confidence.getD (ConfVal.val (mkRat 1 2)) = ConfVal.val (mkRat 1 2) := by
      rw [hconf]; rfl
    have hbeq : (j.table1.getD "" == j.table2.getD "") = false := by
      simpa using h3
    have hcond : (tableExists schemas (j.table1.getD "") &&
        tableExists schemas (j.table2.getD "") &&
        !(j.table1.getD "" == j.table2.getD "")) = true := by
      rw [h1, h2, hbeq]; rfl
    simp only [processJudgments, hget, hcond, if_true, h4, Bool.false_eq_true, if_false]
    rw [processJudgments_acc schemas existing rest
      ([] ++ [semanticRelation (j.table1.getD "") (j.table2.getD "") (mkRat 1 2)])]
    simp
  · show min (mkRat 1 2) (mkRat 9 10) = mkRat 1 2
    decide

/-- Witness for `C10_default_confidence` at a concrete judgment missing its
confidence field. -/
theorem C10_default_confidence_witness :
    ({ table1 := some "a", table2 := some "b" } : Judgment).confidence = none ∧
    analyze_semantic_relationships_with_llm exSchemasAB []
        (OracleResponse.judgments [{ table1 := some "a", table2 := some "b" }]) =
      semanticRelation "a" "b" (mkRat 1 2) :: processJudgments exSchemasAB [] [] [] :=
  ⟨rfl,
    (C10_default_confidence exSchemasAB [] { table1 := some "a", table2 := some "b" } []
      rfl (by decide) (by decide) (by decide) (by decide)).1⟩

end QueryGen
